import Mathlib

/-!
Shallow embedding of `lib/js/sha1.js` (bcrypto SHA1 implementation).

Machine integers are modelled as `Nat` with explicit `% 2^32` at the points
where JavaScript coerces to 32-bit integers (`ToInt32`/`ToUint32` inside the
bitwise operators and `>>> 0`).  Byte buffers are modelled as `List Nat`
(entries intended `< 256`; `readU32` keeps the source's `& 0xff` masks).
The context's 64-byte pending buffer is modelled by its live prefix: the
source maintains the invariant that only the first `bytes % 64` cells of
`this.block` are ever read before being overwritten, so `block : List Nat`
holds exactly those pending bytes.
-/

set_option maxRecDepth 100000

namespace Bcrypto

/-- Round constants `K` from the source. -/
def K : List Nat := [0x5a827999, 0x6ed9eba1, 0x8f1bbcdc, 0xca62c1d6]

/-- `PADDING`: 0x80 followed by 63 zero bytes. -/
def PADDING : List Nat := 0x80 :: List.replicate 63 0

/-- `rotl32(w, b) = (w << b) | (w >>> (32 - b))`; the JS shifts coerce `w`
to 32 bits first, and the result is used modulo 2^32. -/
def rotl32 (w b : Nat) : Nat :=
  (((w % 4294967296) <<< b) ||| ((w % 4294967296) >>> (32 - b))) % 4294967296

/-- `ch32(x, y, z) = (x & y) ^ (~x & z)`; JS bitwise operators coerce the
operands to 32 bits, and `~x` is the 32-bit complement. -/
def ch32 (x y z : Nat) : Nat :=
  ((x % 4294967296) &&& (y % 4294967296)) ^^^
    ((4294967295 ^^^ (x % 4294967296)) &&& (z % 4294967296))

/-- `maj32(x, y, z) = (x & y) ^ (x & z) ^ (y & z)`. -/
def maj32 (x y z : Nat) : Nat :=
  ((x % 4294967296) &&& (y % 4294967296)) ^^^
    ((x % 4294967296) &&& (z % 4294967296)) ^^^
    ((y % 4294967296) &&& (z % 4294967296))

/-- `p32(x, y, z) = x ^ y ^ z`. -/
def p32 (x y z : Nat) : Nat :=
  (x % 4294967296) ^^^ (y % 4294967296) ^^^ (z % 4294967296)

/-- `ft_1(s, x, y, z)`: round-function dispatcher with a `return 0`
fallback for any selector outside {0, 1, 2, 3}. -/
def ft_1 (s x y z : Nat) : Nat :=
  if s = 0 then ch32 x y z
  else if s = 1 ∨ s = 3 then p32 x y z
  else if s = 2 then maj32 x y z
  else 0

/-- `readU32(buf, off) = ((buf[off] & 0xff) * 0x1000000
      + ((buf[off+1] & 0xff) << 16)) | ((buf[off+2] & 0xff) << 8)
      | (buf[off+3] & 0xff)`, with the JS `|` coercing to 32 bits. -/
def readU32 (buf : List Nat) (off : Nat) : Nat :=
  (((buf.getD off 0 &&& 0xff) * 0x1000000 + ((buf.getD (off + 1) 0 &&& 0xff) <<< 16))
    ||| ((buf.getD (off + 2) 0 &&& 0xff) <<< 8)
    ||| (buf.getD (off + 3) 0 &&& 0xff)) % 4294967296

/-- `writeU32(buf, value, off)` stores 4 big-endian bytes; `value >>> 24`
is `(value mod 2^32) / 2^24` and `(value >> k) & 0xff` is
`(value / 2^k) mod 2^8`. -/
def writeU32bytes (v : Nat) : List Nat :=
  [v % 4294967296 / 16777216, v / 65536 % 256, v / 256 % 256, v % 256]

/-- First 16 schedule words: `w[i] = readU32(chunk, pos + i * 4)` for
`i = 0..15` (the 64-byte window starting at `pos` is passed as the list). -/
def wInit (chunk : List Nat) : List Nat :=
  (List.range 16).map (fun i => readU32 chunk (4 * i))

/-- One step of the expansion loop: with `i = ws.length`, append
`w[i] = rotl32(w[i-3] ^ w[i-8] ^ w[i-14] ^ w[i-16], 1)`. -/
def wStep (ws : List Nat) : List Nat :=
  ws ++ [rotl32 (ws.getD (ws.length - 3) 0 ^^^ ws.getD (ws.length - 8) 0 ^^^
                 ws.getD (ws.length - 14) 0 ^^^ ws.getD (ws.length - 16) 0) 1]

/-- The full 80-word message schedule: the expansion loop runs for
`i = 16..79`. -/
def wExpand (chunk : List Nat) : List Nat :=
  wStep^[64] (wInit chunk)

/-- One round of the compression loop: `s = i / 20 | 0`,
`t = rotl32(a,5) + ft_1(s,b,c,d) + e + w[i] + K[s]` (used mod 2^32), then
`e = d; d = c; c = rotl32(b, 30); b = a; a = t`. -/
def roundStep (w : List Nat) (st : Nat × Nat × Nat × Nat × Nat) (i : Nat) :
    Nat × Nat × Nat × Nat × Nat :=
  let s := i / 20
  let t := (rotl32 st.1 5 + ft_1 s st.2.1 st.2.2.1 st.2.2.2.1 + st.2.2.2.2 +
            w.getD i 0 + K.getD s 0) % 4294967296
  (t, st.1, rotl32 st.2.1 30, st.2.2.1, st.2.2.2.1)

/-- `transform(chunk, pos)`: expand the schedule, run 80 rounds over the
working variables seeded from the state, then add the working variables
back into the state with `>>> 0` (mod 2^32). -/
def transform (s : List Nat) (chunk : List Nat) : List Nat :=
  let w := wExpand chunk
  let st := (List.range 80).foldl (roundStep w)
    (s.getD 0 0, s.getD 1 0, s.getD 2 0, s.getD 3 0, s.getD 4 0)
  [(s.getD 0 0 + st.1) % 4294967296,
   (s.getD 1 0 + st.2.1) % 4294967296,
   (s.getD 2 0 + st.2.2.1) % 4294967296,
   (s.getD 3 0 + st.2.2.2.1) % 4294967296,
   (s.getD 4 0 + st.2.2.2.2) % 4294967296]

/-- SHA1 streaming context: five state words `s`, the live prefix of the
64-byte pending buffer `block`, and the byte counter `bytes`. -/
structure SHA1 where
  s : List Nat
  block : List Nat
  bytes : Nat
deriving DecidableEq, Repr

/-- A freshly constructed context (`new SHA1()` allocates uninitialized
arrays; modelled as zeros, every use goes through `init` first). -/
def ctx0 : SHA1 := { s := List.replicate 5 0, block := [], bytes := 0 }

/-- `init()`: seed the five state words and reset the byte counter (the
pending buffer's live prefix becomes empty since `bytes % 64 = 0`). -/
def SHA1.init (_c : SHA1) : SHA1 :=
  { s := [0x67452301, 0xefcdab89, 0x98badcfe, 0x10325476, 0xc3d2e1f0],
    block := [], bytes := 0 }

/-- The `while (len >= 64)` loop of `_update` plus the trailing
remainder copy, with explicit fuel (`ub` supplies `data.length`, which
bounds the number of iterations). -/
def ubGo : Nat → List Nat → List Nat → List Nat × List Nat
  | 0, s, data => (s, data)
  | fuel + 1, s, data =>
    if 64 ≤ data.length then ubGo fuel (transform s (data.take 64)) (data.drop 64)
    else (s, data)

/-- Consume all complete 64-byte blocks of `data`, returning the updated
state and the remainder (`< 64` bytes). -/
def ub (s data : List Nat) : List Nat × List Nat :=
  ubGo data.length s data

/-- `_update(data, len)`: fill the pending buffer first (transforming it
when it reaches 64 bytes), then consume complete blocks directly from the
input, and keep the remainder pending. -/
def SHA1._update (c : SHA1) (data : List Nat) : SHA1 :=
  let size := c.bytes % 64
  let newBytes := c.bytes + data.length
  if 0 < size then
    let want := min (64 - size) data.length
    if size + want < 64 then
      { c with block := c.block ++ data.take want, bytes := newBytes }
    else
      let p := ub (transform c.s (c.block ++ data.take want)) (data.drop want)
      { s := p.1, block := p.2, bytes := newBytes }
  else
    let p := ub c.s data
    { s := p.1, block := p.2, bytes := newBytes }

/-- `DESC`: the 8-byte length trailer; the high word is the float trick
`len * (1 / 0x100000000)` (exact division by 2^32, truncated by the
`>>>`/`ToUint32` coercion inside `writeU32`), the low word is `len`. -/
def DESCbytes (len : Nat) : List Nat :=
  writeU32bytes (len / 4294967296) ++ writeU32bytes len

/-- `_final(out)`: append `1 + ((119 - bytes % 64) % 64)` bytes of
`PADDING`, then the 8-byte `DESC` trailer, serialize the five state words
big-endian, and zero the state. -/
def SHA1._final (c : SHA1) : List Nat × SHA1 :=
  let len := c.bytes * 8
  let c1 := c._update (PADDING.take (1 + ((119 - c.bytes % 64) % 64)))
  let c2 := c1._update (DESCbytes len)
  (((List.range 5).map (fun i => writeU32bytes (c2.s.getD i 0))).flatten,
   { c2 with s := List.replicate 5 0 })

/-- A JavaScript value passed to the public API: either a byte `Buffer`
or any non-Buffer value (tagged so that there are many of them). -/
inductive JsValue where
  | buffer (data : List Nat)
  | nonBuffer (tag : Nat)
deriving DecidableEq, Repr

/-- `Buffer.isBuffer`. -/
def JsValue.isBuffer : JsValue → Bool
  | .buffer _ => true
  | .nonBuffer _ => false

/-- The error thrown by a failed `assert` on input validation. -/
inductive JsError where
  | assertionFailed
deriving DecidableEq, Repr

/-- `update(data)`: `assert(Buffer.isBuffer(data))` runs before any state
is touched, so on a non-Buffer the context is returned unchanged together
with the synchronous error. -/
def SHA1.update (c : SHA1) (v : JsValue) : SHA1 × Option JsError :=
  match v with
  | .buffer data => (c._update data, none)
  | .nonBuffer _ => (c, some .assertionFailed)

/-- The module-level shared context `ctx` and `SHA1.digest(data)`:
`ctx.init().update(data).final()`, returning the digest and the shared
context's new state. -/
def digestShared (g : SHA1) (data : List Nat) : List Nat × SHA1 :=
  (g.init._update data)._final

/-- One-shot digest (the value `SHA1.digest` returns on a Buffer). -/
def digest (data : List Nat) : List Nat :=
  (digestShared ctx0 data).1

/-- `SHA1.root(left, right)`: assert both inputs are Buffers of length
exactly 20, then `ctx.init().update(left).update(right).final()`. -/
def root (g : SHA1) (left right : JsValue) : Except JsError (List Nat) :=
  match left, right with
  | .buffer a, .buffer b =>
    if a.length = 20 then
      if b.length = 20 then
        .ok ((g.init._update a |>._update b)._final.1)
      else .error .assertionFailed
    else .error .assertionFailed
  | _, _ => .error .assertionFailed

/-! ### Lemmas about the block-consuming loop `ub` -/

/-- The initialization constants. -/
def IV : List Nat := [0x67452301, 0xefcdab89, 0x98badcfe, 0x10325476, 0xc3d2e1f0]

/-- The context reached from `init` after feeding exactly the bytes `h`
(in any chunking): state is `ub` over `h`, pending buffer is the
remainder, byte counter is `h.length`. -/
def ctxOf (h : List Nat) : SHA1 :=
  { s := (ub IV h).1, block := (ub IV h).2, bytes := h.length }

/-- Hexadecimal digit expansion of a byte string, used to compare a digest
against the spec's hex-string vector digit by digit. -/
def hexNibbles (bytes : List Nat) : List Nat :=
  (bytes.map (fun b => [b / 16, b % 16])).flatten

/-- A Buffer of length exactly 20. -/
def isBuffer20 : JsValue → Bool
  | .buffer a => a.length == 20
  | .nonBuffer _ => false

/-- The message schedule as the spec states it (refinement claim C1):
slot `i < 16` is the `i`-th big-endian 32-bit word of the block; slots
16–79 satisfy
`schedule[i] = rotate_left(schedule[i-3] xor schedule[i-8] xor schedule[i-14] xor schedule[i-16], 1)`. -/
def scheduleSpec (chunk : List Nat) (i : Nat) : Nat :=
  if _h : i < 16 then
    chunk.getD (4 * i) 0 * 16777216 + chunk.getD (4 * i + 1) 0 * 65536 +
      chunk.getD (4 * i + 2) 0 * 256 + chunk.getD (4 * i + 3) 0
  else
    rotl32 (scheduleSpec chunk (i - 3) ^^^ scheduleSpec chunk (i - 8) ^^^
            scheduleSpec chunk (i - 14) ^^^ scheduleSpec chunk (i - 16)) 1
termination_by i
decreasing_by all_goals omega

/-- One round as the spec states it: rounds 0–19 use `ch` and
`0x5a827999`, rounds 20–39 use parity and `0x6ed9eba1`, rounds 40–59 use
`maj` and `0x8f1bbcdc`, rounds 60–79 use parity and `0xca62c1d6`;
`t = rotate_left(a,5) + f + e + schedule[i] + K mod 2^32`, then
`e=d; d=c; c=rotate_left(b,30); b=a; a=t`. -/
def roundStepSpec (chunk : List Nat) (st : Nat × Nat × Nat × Nat × Nat) (i : Nat) :
    Nat × Nat × Nat × Nat × Nat :=
  let f := if i ≤ 19 then ch32 st.2.1 st.2.2.1 st.2.2.2.1
           else if i ≤ 39 then p32 st.2.1 st.2.2.1 st.2.2.2.1
           else if i ≤ 59 then maj32 st.2.1 st.2.2.1 st.2.2.2.1
           else p32 st.2.1 st.2.2.1 st.2.2.2.1
  let k := if i ≤ 19 then 0x5a827999 else if i ≤ 39 then 0x6ed9eba1
           else if i ≤ 59 then 0x8f1bbcdc else 0xca62c1d6
  ((rotl32 st.1 5 + f + st.2.2.2.2 + scheduleSpec chunk i + k) % 4294967296,
   st.1, rotl32 st.2.1 30, st.2.2.1, st.2.2.2.1)

/-- The block transform as the spec states it, for comparison with
`transform`. -/
def transformSpec (s chunk : List Nat) : List Nat :=
  let st := (List.range 80).foldl (roundStepSpec chunk)
    (s.getD 0 0, s.getD 1 0, s.getD 2 0, s.getD 3 0, s.getD 4 0)
  [(s.getD 0 0 + st.1) % 4294967296,
   (s.getD 1 0 + st.2.1) % 4294967296,
   (s.getD 2 0 + st.2.2.1) % 4294967296,
   (s.getD 3 0 + st.2.2.2.1) % 4294967296,
   (s.getD 4 0 + st.2.2.2.2) % 4294967296]

theorem ubGo_small (f : Nat) (s m : List Nat) (h : m.length < 64) :
    ubGo f s m = (s, m) := by
  cases f with
  | zero => rfl
  | succ f => simp [ubGo, Nat.not_le.2 h]

theorem ubGo_congr (f : Nat) : ∀ (g : Nat) (s m : List Nat),
    m.length ≤ f → m.length ≤ g → ubGo f s m = ubGo g s m := by
  induction f with
  | zero =>
    intro g s m hf _
    have : m.length < 64 := by omega
    rw [ubGo_small _ _ _ this, ubGo_small _ _ _ this]
  | succ f ih =>
    intro g s m hf hg
    by_cases h64 : 64 ≤ m.length
    · cases g with
      | zero => omega
      | succ g =>
        simp only [ubGo, if_pos h64]
        exact ih g _ _ (by simp; omega) (by simp; omega)
    · rw [ubGo_small _ _ _ (by omega), ubGo_small _ _ _ (by omega)]

theorem ub_small (s m : List Nat) (h : m.length < 64) : ub s m = (s, m) :=
  ubGo_small _ _ _ h

theorem ub_step (s m : List Nat) (h : 64 ≤ m.length) :
    ub s m = ub (transform s (m.take 64)) (m.drop 64) := by
  obtain ⟨f, hf⟩ : ∃ f, m.length = f + 1 := ⟨m.length - 1, by omega⟩
  show ubGo m.length s m = _
  rw [hf]
  simp only [ubGo, if_pos h]
  exact ubGo_congr f ((m.drop 64).length) _ _
    (by rw [List.length_drop]; omega) (Nat.le_refl _)

theorem ub_append (n : Nat) : ∀ (s x y : List Nat), x.length ≤ n →
    ub s (x ++ y) = ub (ub s x).1 ((ub s x).2 ++ y) := by
  induction n with
  | zero =>
    intro s x y hx
    have hx0 : x = [] := List.eq_nil_of_length_eq_zero (by omega)
    subst hx0
    rw [ub_small s [] (by simp)]
  | succ n ih =>
    intro s x y hx
    by_cases h64 : 64 ≤ x.length
    · have hxy : 64 ≤ (x ++ y).length := by simp; omega
      rw [ub_step _ _ hxy, ub_step s x h64]
      have htake : (x ++ y).take 64 = x.take 64 := by
        rw [List.take_append_eq_append_take]
        have : 64 - x.length = 0 := by omega
        simp [this]
      have hdrop : (x ++ y).drop 64 = x.drop 64 ++ y := by
        rw [List.drop_append_eq_append_drop]
        have : 64 - x.length = 0 := by omega
        simp [this]
      rw [htake, hdrop]
      exact ih _ _ _ (by simp; omega)
    · rw [ub_small s x (by omega)]

theorem ub_snd_len (n : Nat) : ∀ (s m : List Nat), m.length ≤ n →
    (ub s m).2.length = m.length % 64 := by
  induction n with
  | zero =>
    intro s m hm
    rw [ub_small _ _ (by omega)]
    show m.length = m.length % 64
    omega
  | succ n ih =>
    intro s m hm
    by_cases h64 : 64 ≤ m.length
    · rw [ub_step _ _ h64]
      have := ih (transform s (m.take 64)) (m.drop 64) (by rw [List.length_drop]; omega)
      rw [this, List.length_drop]
      omega
    · rw [ub_small _ _ (by omega)]
      show m.length = m.length % 64
      omega

/-- Branch equation: empty pending buffer. -/
theorem update_eq_empty (c : SHA1) (data : List Nat) (h : c.bytes % 64 = 0) :
    c._update data =
      { s := (ub c.s data).1, block := (ub c.s data).2,
        bytes := c.bytes + data.length } := by
  simp only [SHA1._update, h]
  rw [if_neg (by omega : ¬ (0:Nat) < 0)]

/-- Branch equation: the input fits into the pending buffer without
completing a block. -/
theorem update_eq_small (c : SHA1) (data : List Nat) (h1 : 0 < c.bytes % 64)
    (h2 : c.bytes % 64 + min (64 - c.bytes % 64) data.length < 64) :
    c._update data =
      { c with block := c.block ++ data.take (min (64 - c.bytes % 64) data.length),
               bytes := c.bytes + data.length } := by
  simp only [SHA1._update, if_pos h1, if_pos h2]

/-- Branch equation: the pending buffer fills to 64 bytes, is
transformed, and the rest of the input is consumed by the block loop. -/
theorem update_eq_fill (c : SHA1) (data : List Nat) (h1 : 0 < c.bytes % 64)
    (h2 : ¬ c.bytes % 64 + min (64 - c.bytes % 64) data.length < 64) :
    c._update data =
      { s := (ub (transform c.s
                (c.block ++ data.take (min (64 - c.bytes % 64) data.length)))
                (data.drop (min (64 - c.bytes % 64) data.length))).1,
        block := (ub (transform c.s
                (c.block ++ data.take (min (64 - c.bytes % 64) data.length)))
                (data.drop (min (64 - c.bytes % 64) data.length))).2,
        bytes := c.bytes + data.length } := by
  simp only [SHA1._update, if_pos h1, if_neg h2]

/-- The central streaming lemma: feeding `d` into the context reached
after `h` yields the context reached after `h ++ d`. -/
theorem update_ctxOf (h d : List Nat) :
    (ctxOf h)._update d = ctxOf (h ++ d) := by
  have hlen : (ub IV h).2.length = h.length % 64 :=
    ub_snd_len h.length IV h (Nat.le_refl _)
  have happ : ub IV (h ++ d) = ub (ub IV h).1 ((ub IV h).2 ++ d) :=
    ub_append h.length IV h d (Nat.le_refl _)
  have hcb : (ctxOf h).bytes = h.length := rfl
  have hcs : (ctxOf h).s = (ub IV h).1 := rfl
  have hcbl : (ctxOf h).block = (ub IV h).2 := rfl
  have hlapp : (h ++ d).length = h.length + d.length := List.length_append h d
  by_cases hr : 0 < h.length % 64
  · by_cases hw : h.length % 64 + min (64 - h.length % 64) d.length < 64
    · -- small: the input fits in the pending buffer
      have hdlen : d.length < 64 - h.length % 64 := by omega
      have hmin : min (64 - h.length % 64) d.length = d.length := by omega
      rw [update_eq_small (ctxOf h) d (by rw [hcb]; exact hr) (by rw [hcb]; exact hw)]
      have hsmall : ((ub IV h).2 ++ d).length < 64 := by
        rw [List.length_append, hlen]; omega
      simp only [ctxOf, hcb, hcs, hcbl, hmin, List.take_length, happ,
        ub_small _ _ hsmall, hlapp, SHA1.mk.injEq]
    · -- fill: the pending buffer completes a block
      have hdlen : 64 - h.length % 64 ≤ d.length := by omega
      have hmin : min (64 - h.length % 64) d.length = 64 - h.length % 64 := by omega
      rw [update_eq_fill (ctxOf h) d (by rw [hcb]; exact hr) (by rw [hcb]; exact hw)]
      have hge : 64 ≤ ((ub IV h).2 ++ d).length := by
        rw [List.length_append, hlen]; omega
      have htake : ((ub IV h).2 ++ d).take 64 =
          (ub IV h).2 ++ d.take (64 - h.length % 64) := by
        rw [List.take_append_eq_append_take,
            List.take_of_length_le (by omega : (ub IV h).2.length ≤ 64), hlen]
      have hdrop : ((ub IV h).2 ++ d).drop 64 = d.drop (64 - h.length % 64) := by
        rw [List.drop_append_eq_append_drop,
            List.drop_eq_nil_of_le (by omega : (ub IV h).2.length ≤ 64), hlen,
            List.nil_append]
      simp only [ctxOf, hcb, hcs, hcbl, hmin, happ, ub_step _ _ hge, htake, hdrop,
        hlapp, SHA1.mk.injEq]
  · -- pending buffer empty
    have hR : (ub IV h).2 = [] := List.eq_nil_of_length_eq_zero (by omega)
    rw [update_eq_empty (ctxOf h) d (by rw [hcb]; omega)]
    simp only [ctxOf, hcb, hcs, hcbl, happ, hR, List.nil_append, hlapp, SHA1.mk.injEq]

theorem init_eq_ctxOf_nil (c : SHA1) : c.init = ctxOf [] := rfl

theorem foldl_update_ctxOf (chunks : List (List Nat)) : ∀ h : List Nat,
    chunks.foldl SHA1._update (ctxOf h) = ctxOf (h ++ chunks.flatten) := by
  induction chunks with
  | nil => intro h; simp
  | cons ch t ih =>
    intro h
    simp only [List.foldl_cons, List.flatten_cons, update_ctxOf]
    rw [ih (h ++ ch), List.append_assoc]

/-- C3: for every byte sequence and every partition of it into consecutive
chunks, feeding the chunks in order after `init` and finalizing yields the
same digest as a single feed of the whole sequence; and `_update` with the
empty byte sequence is a no-op on any context whose pending buffer agrees
with its byte counter (the invariant every reachable context satisfies). -/
theorem streaming_equivalence :
    (∀ chunks : List (List Nat),
      ((chunks.foldl SHA1._update ctx0.init)._final).1 =
        (((ctx0.init)._update chunks.flatten)._final).1)
    ∧ (∀ c : SHA1, c.block.length = c.bytes % 64 → c._update [] = c) := by
  constructor
  · intro chunks
    rw [init_eq_ctxOf_nil, foldl_update_ctxOf chunks [], update_ctxOf]
  · intro c hc
    obtain ⟨cs, cb, cn⟩ := c
    simp only at hc
    rcases Nat.eq_zero_or_pos (cn % 64) with h0 | h0
    · have hb : cb = [] := List.eq_nil_of_length_eq_zero (by omega)
      subst hb
      rw [update_eq_empty _ [] h0]
      rfl
    · rw [update_eq_small _ [] h0 (by simp; omega)]
      simp

/-- C3 witness: a concrete split feed equals the concrete one-shot feed,
and `_update []` is a no-op on a concrete mid-stream context. -/
theorem streaming_equivalence_witness :
    ((([[97], [98, 99]] : List (List Nat)).foldl SHA1._update ctx0.init)._final.1 =
      ((ctx0.init)._update ([[97], [98, 99]] : List (List Nat)).flatten)._final.1)
    ∧ ((SHA1.mk [1, 2, 3, 4, 5] [7] 65).block.length = (SHA1.mk [1, 2, 3, 4, 5] [7] 65).bytes % 64
        ∧ (SHA1.mk [1, 2, 3, 4, 5] [7] 65)._update [] = SHA1.mk [1, 2, 3, 4, 5] [7] 65) :=
  ⟨streaming_equivalence.1 [[97], [98, 99]],
   by decide, streaming_equivalence.2 (SHA1.mk [1, 2, 3, 4, 5] [7] 65) (by decide)⟩

theorem ctxOf_bytes (h : List Nat) : (ctxOf h).bytes = h.length := rfl

theorem padding_take (z : Nat) (hz : z ≤ 63) :
    PADDING.take (1 + z) = 0x80 :: List.replicate z 0 := by
  show ((0x80 : Nat) :: List.replicate 63 0).take (1 + z) = _
  rw [Nat.add_comm, List.take_succ_cons, List.take_replicate, Nat.min_eq_left hz]

theorem descBytes_eq (L : Nat) :
    DESCbytes L = [L / 72057594037927936 % 256, L / 281474976710656 % 256,
      L / 1099511627776 % 256, L / 4294967296 % 256,
      L / 16777216 % 256, L / 65536 % 256, L / 256 % 256, L % 256] := by
  have e0 : L / 4294967296 % 4294967296 / 16777216 = L / 72057594037927936 % 256 := by
    omega
  have e1 : L / 4294967296 / 65536 % 256 = L / 281474976710656 % 256 := by
    rw [Nat.div_div_eq_div_mul]
  have e2 : L / 4294967296 / 256 % 256 = L / 1099511627776 % 256 := by
    rw [Nat.div_div_eq_div_mul]
  have e4 : L % 4294967296 / 16777216 = L / 16777216 % 256 := by omega
  simp only [DESCbytes, writeU32bytes, List.cons_append, List.nil_append, e0, e1, e2, e4]

/-- C2: finalize appends `0x80`, then zero bytes until the length is 56 mod
64, then the 8-byte big-endian bit count; the pending remainder plus the
appended suffix is exactly one 64-byte block when the remainder is 0..55
and exactly two when it is 56..63; the digest is the big-endian
serialization of the five final state words. -/
theorem finalize_padding (h : List Nat) :
    ((ctxOf h)._final).1 =
      ((List.range 5).map (fun i => writeU32bytes
        ((ub IV (h ++ (0x80 :: (List.replicate ((119 - h.length % 64) % 64) 0 ++
          [h.length * 8 / 72057594037927936 % 256, h.length * 8 / 281474976710656 % 256,
           h.length * 8 / 1099511627776 % 256, h.length * 8 / 4294967296 % 256,
           h.length * 8 / 16777216 % 256, h.length * 8 / 65536 % 256,
           h.length * 8 / 256 % 256, h.length * 8 % 256])))).1.getD i 0))).flatten
    ∧ (h.length + (1 + (119 - h.length % 64) % 64)) % 64 = 56
    ∧ h.length % 64 + (1 + (119 - h.length % 64) % 64) + 8 =
        64 * (if h.length % 64 ≤ 55 then 1 else 2) := by
  refine ⟨?_, by omega, by split <;> omega⟩
  have hz : (119 - h.length % 64) % 64 ≤ 63 := by omega
  simp only [SHA1._final, ctxOf_bytes]
  rw [update_ctxOf, update_ctxOf, padding_take _ hz, descBytes_eq,
      List.append_assoc, List.cons_append]
  rfl

theorem digest_eq_ctxOf (m : List Nat) : digest m = ((ctxOf m)._final).1 := by
  show (((ctx0.init)._update m)._final).1 = _
  rw [init_eq_ctxOf_nil, update_ctxOf, List.nil_append]

/-- C4: the one-shot digest of the empty byte sequence. -/
theorem digest_empty :
    digest [] = [0xda, 0x39, 0xa3, 0xee, 0x5e, 0x6b, 0x4b, 0x0d, 0x32, 0x55,
                 0xbf, 0xef, 0x95, 0x60, 0x18, 0x90, 0xaf, 0xd8, 0x07, 0x09] := by
  decide

/-- C5 counterexample: the spec's vector `a9993e364706816aba3e25717850c26c9cd0d89`
has 39 hex digits, while the digest of "abc" has 40; digit by digit they
disagree (the true digest has a final `d` the spec's vector lacks). -/
theorem digest_abc_spec_vector_wrong :
    hexNibbles (digest [0x61, 0x62, 0x63]) ≠
      [0xa, 0x9, 0x9, 0x9, 0x3, 0xe, 0x3, 0x6, 0x4, 0x7, 0x0, 0x6, 0x8, 0x1, 0x6, 0xa,
       0xb, 0xa, 0x3, 0xe, 0x2, 0x5, 0x7, 0x1, 0x7, 0x8, 0x5, 0x0, 0xc, 0x2, 0x6, 0xc,
       0x9, 0xc, 0xd, 0x0, 0xd, 0x8, 0x9] := by
  decide

/-- C5 amended: the digest of "abc" is the standard 20-byte value
`a9993e364706816aba3e25717850c26c9cd0d89d`. -/
theorem digest_abc :
    digest [0x61, 0x62, 0x63] = [0xa9, 0x99, 0x3e, 0x36, 0x47, 0x06, 0x81, 0x6a,
      0xba, 0x3e, 0x25, 0x71, 0x78, 0x50, 0xc2, 0x6c, 0x9c, 0xd0, 0xd8, 0x9d] := by
  decide

/-- C6: `root(a, b)` on two 20-byte Buffers equals `digest(a ++ b)`
(whatever the prior state of the shared context), and `root` fails with
the input-validation error whenever either input is not a Buffer of
length exactly 20 (no truncation or padding). -/
theorem root_combine :
    (∀ (g : SHA1) (a b : List Nat), a.length = 20 → b.length = 20 →
      root g (.buffer a) (.buffer b) = .ok (digest (a ++ b)))
    ∧ (∀ (g : SHA1) (l r : JsValue), isBuffer20 l = false ∨ isBuffer20 r = false →
      root g l r = .error .assertionFailed) := by
  constructor
  · intro g a b ha hb
    simp only [root, if_pos ha, if_pos hb]
    rw [digest_eq_ctxOf, init_eq_ctxOf_nil, update_ctxOf, List.nil_append, update_ctxOf]
  · intro g l r hlr
    cases l with
    | nonBuffer t => rfl
    | buffer a =>
      cases r with
      | nonBuffer t => rfl
      | buffer b =>
        simp only [isBuffer20, beq_eq_false_iff_ne] at hlr
        by_cases ha : a.length = 20
        · have hb : ¬ b.length = 20 := by tauto
          simp only [root, if_pos ha, if_neg hb]
        · simp only [root, if_neg ha]

/-- C6 witness: concrete 20-byte inputs on the valid branch and a concrete
short input on the error branch. -/
theorem root_combine_witness :
    ((List.replicate 20 0).length = 20
      ∧ root ctx0 (.buffer (List.replicate 20 0)) (.buffer (List.replicate 20 0)) =
          .ok (digest (List.replicate 20 0 ++ List.replicate 20 0)))
    ∧ (isBuffer20 (.buffer [1, 2]) = false
      ∧ root ctx0 (.buffer [1, 2]) (.buffer (List.replicate 20 0)) =
          .error .assertionFailed) :=
  ⟨⟨by decide, root_combine.1 ctx0 (List.replicate 20 0) (List.replicate 20 0)
      (by decide) (by decide)⟩,
   ⟨by decide, root_combine.2 ctx0 (.buffer [1, 2]) (.buffer (List.replicate 20 0))
      (Or.inl (by decide))⟩⟩

/-- C7: `init(); feed(X); finalize()` run twice on the same context
instance (with `init()` between) produces the same digest both times, and
equals a freshly constructed context's result for X. -/
theorem reuse_law (c : SHA1) (X : List Nat) :
    (((((c.init)._update X)._final).2.init._update X)._final).1 =
        (((c.init)._update X)._final).1
    ∧ (((c.init)._update X)._final).1 = (((ctx0.init)._update X)._final).1 :=
  ⟨rfl, rfl⟩

/-- C8: `update` on a non-Buffer input fails synchronously with the
input-validation error (the `assert` fires before any mutation), leaving
the context completely unchanged. -/
theorem update_nonbuffer_error (c : SHA1) (v : JsValue) (h : v.isBuffer = false) :
    c.update v = (c, some JsError.assertionFailed) := by
  cases v with
  | buffer d => simp [JsValue.isBuffer] at h
  | nonBuffer t => rfl

/-- C8 witness. -/
theorem update_nonbuffer_error_witness :
    (JsValue.nonBuffer 0).isBuffer = false
    ∧ ctx0.update (JsValue.nonBuffer 0) = (ctx0, some JsError.assertionFailed) :=
  ⟨by decide, update_nonbuffer_error ctx0 (JsValue.nonBuffer 0) (by decide)⟩

/-- C9 counterexample: `digest` runs on the single module-level shared
context, so two interleaved digest computations are not isolated.  Under
the schedule A:init, B:init, A:update [97], B:update [98], A:final, the
digest observed by caller A differs from the digest of A's own input
`[97]` (it is the digest of `[97, 98]`). -/
theorem digest_shared_not_isolated :
    (((((ctx0.init).init)._update [97])._update [98])._final).1 ≠
      (digestShared ctx0 [97]).1 := by
  decide

/-- C9 amended: the one-shot digest operates on a module-level shared
mutable context; interleaved concurrent calls are not isolated, but any
completed non-interleaved call's result (and the context it leaves) is
independent of the shared context's prior state. -/
theorem digest_shared_prior_state_independent (g1 g2 : SHA1) (data : List Nat) :
    digestShared g1 data = digestShared g2 data := rfl

/-- C10: every round index below 80 gives a selector `s = i / 20` in
{0, 1, 2, 3}; the lookup `K[s]` is within the table's bounds and the
dispatcher `ft_1` takes one of its three genuine branches, never the
fallback that returns 0. -/
theorem round_selector_in_range (i x y z : Nat) (h : i < 80) :
    i / 20 < K.length
    ∧ (i / 20 = 0 ∨ i / 20 = 1 ∨ i / 20 = 2 ∨ i / 20 = 3)
    ∧ ft_1 (i / 20) x y z =
        (if i / 20 = 0 then ch32 x y z
         else if i / 20 = 1 ∨ i / 20 = 3 then p32 x y z
         else maj32 x y z) := by
  have hs : i / 20 = 0 ∨ i / 20 = 1 ∨ i / 20 = 2 ∨ i / 20 = 3 := by omega
  refine ⟨by simp [K]; omega, hs, ?_⟩
  rcases hs with h0 | h1 | h2 | h3
  · rw [h0]; rfl
  · rw [h1]; rfl
  · rw [h2]; rfl
  · rw [h3]; rfl

/-- The source's mixed `*`/`+`/`|` big-endian read equals the plain
big-endian word when the four bytes are below 256. -/
theorem be_or_add (b0 b1 b2 b3 : Nat) (h0 : b0 < 256) (h1 : b1 < 256)
    (h2 : b2 < 256) (h3 : b3 < 256) :
    (((b0 &&& 0xff) * 0x1000000 + ((b1 &&& 0xff) <<< 16)) ||| ((b2 &&& 0xff) <<< 8)
      ||| (b3 &&& 0xff)) % 4294967296
      = b0 * 16777216 + b1 * 65536 + b2 * 256 + b3 := by
  have m : ∀ b : Nat, b < 256 → b &&& 255 = b := by
    intro b hb
    have hm := Nat.and_pow_two_sub_one_eq_mod b 8
    norm_num at hm
    rw [hm, Nat.mod_eq_of_lt hb]
  rw [m b0 h0, m b1 h1, m b2 h2, m b3 h3, Nat.shiftLeft_eq, Nat.shiftLeft_eq]
  norm_num
  rw [show b0 * 16777216 + b1 * 65536 = 2 ^ 16 * (b0 * 256 + b1) by ring,
      ← Nat.mul_add_lt_is_or (show b2 * 256 < 2 ^ 16 by omega) (b0 * 256 + b1)]
  rw [show 2 ^ 16 * (b0 * 256 + b1) + b2 * 256 =
        2 ^ 8 * (b0 * 65536 + b1 * 256 + b2) by ring,
      ← Nat.mul_add_lt_is_or (show b3 < 2 ^ 8 by omega) (b0 * 65536 + b1 * 256 + b2)]
  omega

theorem getD_lt_256 (chunk : List Nat) (hb : ∀ x ∈ chunk, x < 256) (i : Nat) :
    chunk.getD i 0 < 256 := by
  by_cases h : i < chunk.length
  · rw [List.getD_eq_getElem?_getD, List.getElem?_eq_getElem h]
    exact hb _ (List.getElem_mem h)
  · rw [List.getD_eq_getElem?_getD, List.getElem?_eq_none (by omega)]
    norm_num

theorem readU32_eq (chunk : List Nat) (hb : ∀ x ∈ chunk, x < 256) (off : Nat) :
    readU32 chunk off = chunk.getD off 0 * 16777216 + chunk.getD (off + 1) 0 * 65536 +
      chunk.getD (off + 2) 0 * 256 + chunk.getD (off + 3) 0 :=
  be_or_add _ _ _ _ (getD_lt_256 chunk hb off) (getD_lt_256 chunk hb (off + 1))
    (getD_lt_256 chunk hb (off + 2)) (getD_lt_256 chunk hb (off + 3))

theorem wInit_length (chunk : List Nat) : (wInit chunk).length = 16 := by
  simp [wInit]

theorem wStep_length (ws : List Nat) : (wStep ws).length = ws.length + 1 := by
  simp [wStep]

theorem wIter_length (chunk : List Nat) (n : Nat) :
    (wStep^[n] (wInit chunk)).length = 16 + n := by
  induction n with
  | zero => exact wInit_length chunk
  | succ n ih =>
    rw [Function.iterate_succ_apply', wStep_length, ih]
    omega

theorem wInit_getD (chunk : List Nat) (j : Nat) (hj : j < 16) :
    (wInit chunk).getD j 0 = readU32 chunk (4 * j) := by
  simp [wInit, List.getD_eq_getElem?_getD, List.getElem?_map, List.getElem?_range, hj]

theorem wIter_getD (chunk : List Nat) (hb : ∀ x ∈ chunk, x < 256) :
    ∀ n, ∀ j < 16 + n, (wStep^[n] (wInit chunk)).getD j 0 = scheduleSpec chunk j := by
  intro n
  induction n with
  | zero =>
    intro j hj
    rw [Function.iterate_zero_apply, wInit_getD chunk j hj, readU32_eq chunk hb,
        scheduleSpec]
    rw [dif_pos hj]
  | succ n ih =>
    intro j hj
    rw [Function.iterate_succ_apply']
    have hlen : (wStep^[n] (wInit chunk)).length = 16 + n := wIter_length chunk n
    rcases Nat.lt_or_ge j (16 + n) with hlt | hge
    · rw [wStep, List.getD_eq_getElem?_getD, List.getElem?_append_left (by omega),
          ← List.getD_eq_getElem?_getD]
      exact ih j hlt
    · have hj' : j = 16 + n := by omega
      subst hj'
      rw [wStep, List.getD_eq_getElem?_getD,
          List.getElem?_append_right (by omega), hlen]
      have h16 : ¬ (16 + n < 16) := by omega
      rw [scheduleSpec]
      rw [dif_neg h16]
      simp only [Nat.sub_self, List.getElem?_cons_zero, Option.getD_some]
      rw [ih (16 + n - 3) (by omega), ih (16 + n - 8) (by omega),
          ih (16 + n - 14) (by omega), ih (16 + n - 16) (by omega)]

theorem wExpand_getD (chunk : List Nat) (hb : ∀ x ∈ chunk, x < 256) (i : Nat)
    (hi : i < 80) : (wExpand chunk).getD i 0 = scheduleSpec chunk i :=
  wIter_getD chunk hb 64 i (by omega)

theorem roundStep_eq (chunk : List Nat) (hb : ∀ x ∈ chunk, x < 256)
    (st : Nat × Nat × Nat × Nat × Nat) (i : Nat) (hi : i < 80) :
    roundStep (wExpand chunk) st i = roundStepSpec chunk st i := by
  have hw : (wExpand chunk)[i]?.getD 0 = scheduleSpec chunk i := by
    rw [← List.getD_eq_getElem?_getD]
    exact wExpand_getD chunk hb i hi
  have hs : i / 20 = 0 ∨ i / 20 = 1 ∨ i / 20 = 2 ∨ i / 20 = 3 := by omega
  rcases hs with h | h | h | h
  · simp [roundStep, roundStepSpec, h, hw, ft_1, K, show i ≤ 19 by omega]
  · simp [roundStep, roundStepSpec, h, hw, ft_1, K,
      show ¬ i ≤ 19 by omega, show i ≤ 39 by omega]
  · simp [roundStep, roundStepSpec, h, hw, ft_1, K,
      show ¬ i ≤ 19 by omega, show ¬ i ≤ 39 by omega, show i ≤ 59 by omega]
  · simp [roundStep, roundStepSpec, h, hw, ft_1, K,
      show ¬ i ≤ 19 by omega, show ¬ i ≤ 39 by omega, show ¬ i ≤ 59 by omega]

/-- C1: the block transform agrees with the spec's description of it —
big-endian load of slots 0–15, the rotate-xor expansion of slots 16–79,
and 80 rounds with the range-selected round functions and constants —
for every block of bytes and every state. -/
theorem transform_eq_transformSpec (s chunk : List Nat)
    (hb : ∀ x ∈ chunk, x < 256) : transform s chunk = transformSpec s chunk := by
  simp only [transform, transformSpec]
  rw [List.foldl_ext (roundStep (wExpand chunk)) (roundStepSpec chunk) _
    (fun st i hi => roundStep_eq chunk hb st i (List.mem_range.1 hi))]

/-- C1 witness: the theorem applied to a concrete 64-byte block. -/
theorem transform_eq_transformSpec_witness :
    (∀ x ∈ List.replicate 64 (7 : Nat), x < 256)
    ∧ transform IV (List.replicate 64 7) = transformSpec IV (List.replicate 64 7) :=
  ⟨by decide, transform_eq_transformSpec IV (List.replicate 64 7) (by decide)⟩

/-- C10 witness. -/
theorem round_selector_in_range_witness :
    (41 < 80)
    ∧ (41 / 20 < K.length
      ∧ (41 / 20 = 0 ∨ 41 / 20 = 1 ∨ 41 / 20 = 2 ∨ 41 / 20 = 3)
      ∧ ft_1 (41 / 20) 1 2 3 =
          (if 41 / 20 = 0 then ch32 1 2 3
           else if 41 / 20 = 1 ∨ 41 / 20 = 3 then p32 1 2 3
           else maj32 1 2 3)) :=
  ⟨by decide, round_selector_in_range 41 1 2 3 (by decide)⟩

end Bcrypto
